import Mathlib

/-
Verification of the RepoLLM context-assembly pipeline.

Shallow embedding conventions: TypeScript strings are modelled as `List Char`
(`Str`), so every string operation of the source is an explicit recursive
function on character lists.  Asynchronous functions of the source that
perform no I/O relevant to a claim are modelled as pure functions.  The
token counter (an external collaborator) is a parameter `tok : Str → Nat`.
-/

abbrev Str := List Char

/-- The ASCII whitespace characters relevant to the source's inputs
(models the JS `\s` class and `String.prototype.trim`). -/
def isWs (c : Char) : Bool :=
  c = ' ' || c = '\t' || c = '\n' || c = '\r'

/-- Models `String.prototype.toLowerCase` on ASCII text. -/
def toLowerStr (s : Str) : Str := s.map Char.toLower

/-- Models `String.prototype.trim`. -/
def trimStr (s : Str) : Str :=
  ((s.dropWhile isWs).reverse.dropWhile isWs).reverse

/-- Models `String.prototype.includes`: `containsSub s pat` is true iff
`pat` occurs contiguously inside `s`. -/
def containsSub (pat : Str) : Str → Bool
  | [] => pat.isPrefixOf []
  | c :: t => pat.isPrefixOf (c :: t) || containsSub pat t

/-- Models `String.prototype.replace` with a plain-string pattern and empty
replacement: removes the first occurrence of `pat`. -/
def replaceFirst (pat : Str) : Str → Str
  | [] => []
  | c :: t =>
    if pat.isPrefixOf (c :: t) then List.drop pat.length (c :: t)
    else c :: replaceFirst pat t

/-- Models `String.prototype.split('\n')`. -/
def splitNl : Str → List Str
  | [] => [[]]
  | c :: t =>
    if c = '\n' then [] :: splitNl t
    else
      match splitNl t with
      | [] => [[c]]
      | l :: ls => (c :: l) :: ls

/-- Models `Array.prototype.join('\n')`. -/
def joinNl : List Str → Str
  | [] => []
  | [l] => l
  | l :: l₂ :: ls => l ++ '\n' :: joinNl (l₂ :: ls)

/-- Models `String.prototype.split('/')`. -/
def splitSlash : Str → List Str
  | [] => [[]]
  | c :: t =>
    if c = '/' then [] :: splitSlash t
    else
      match splitSlash t with
      | [] => [[c]]
      | l :: ls => (c :: l) :: ls

/-- Models `Array.prototype.join('/')`. -/
def joinSlash : List Str → Str
  | [] => []
  | [l] => l
  | l :: l₂ :: ls => l ++ '/' :: joinSlash (l₂ :: ls)

/-- Models `path.split('/').pop()` (the base name of a path). -/
def lastSeg (p : Str) : Str := (splitSlash p).getLast?.getD []

/-- Models `filePath.substring(0, filePath.lastIndexOf('/'))`: everything
before the last slash, `[]` when there is no slash. -/
def dirOf (p : Str) : Str :=
  if ('/' : Char) ∈ p then (((p.reverse).dropWhile (fun c => c ≠ '/')).tail).reverse
  else []

/-- Models `parseInt` on a digit string. -/
def parseNat (ds : Str) : Nat :=
  ds.foldl (fun a c => a * 10 + (c.toNat - 48)) 0

/-- Decimal rendering of a number, models JS template interpolation of a
number. -/
def natToStr (n : Nat) : Str := Nat.toDigits 10 n

/-- Models `String.prototype.padStart(4, ' ')`. -/
def pad4 (s : Str) : Str := List.replicate (4 - s.length) ' ' ++ s

/-- Models the JS `\w` character class (used by `extractKeywords`). -/
def isWordChar (c : Char) : Bool := c.isAlphanum || c = '_'

/-- Single-pass accumulator for `wsRuns`; `cur` holds the characters of the
current non-whitespace run in reverse. -/
def wsRunsAux (cur : Str) : Str → List Str
  | [] => if cur = [] then [] else [cur.reverse]
  | c :: t =>
    if isWs c then
      if cur = [] then wsRunsAux [] t else cur.reverse :: wsRunsAux [] t
    else wsRunsAux (c :: cur) t

/-- The maximal non-whitespace runs of a string, in order. -/
def wsRuns (s : Str) : List Str := wsRunsAux [] s

/-- Models `String.prototype.split(/\s+/)`: the fields between maximal
whitespace runs, with an empty leading (trailing) field when the string
starts (ends) with whitespace, as in JS. -/
def splitWS (s : Str) : List Str :=
  match s with
  | [] => [[]]
  | c :: t =>
    (if isWs c then [([] : Str)] else []) ++ wsRuns (c :: t) ++
      (match (c :: t).getLast? with
       | some d => if isWs d then [([] : Str)] else []
       | none => [])

/-- Accumulator pass for `dedupFirst`: keeps an element iff it was not seen
before, mirroring insertion into a JS `Set`. -/
def dedupAux (seen : List Str) : List Str → List Str
  | [] => []
  | x :: t => if seen.contains x then dedupAux seen t else x :: dedupAux (x :: seen) t

/-- First-seen-order deduplication, models `[...new Set(words)]`. -/
def dedupFirst (l : List Str) : List Str := dedupAux [] l

/-! ## Query classifier (`classifyQuestion`, `extractKeywords`) -/

/-- The eight query intents of `classifyQuestion`. -/
inductive QType where
  | codeLocation | explanation | flow | architecture
  | bugAnalysis | improvement | documentation | general
deriving DecidableEq, Repr

/-- The classifier's output shape: intent plus extracted keywords. -/
structure QClass where
  type : QType
  keywords : List Str
deriving DecidableEq, Repr

/-- The stop-word set of `extractKeywords`. -/
def stopWords : List Str :=
  ["the", "a", "an", "is", "are", "was", "were", "be", "been", "being",
   "have", "has", "had", "do", "does", "did", "will", "would", "should",
   "could", "may", "might", "must", "can", "this", "that", "these", "those",
   "i", "you", "he", "she", "it", "we", "they", "what", "which", "who",
   "where", "when", "why", "how", "in", "on", "at", "to", "for", "of",
   "with", "by", "from", "about", "into", "through", "during", "before",
   "after", "above", "below", "up", "down", "out", "off", "over", "under",
   "again", "further", "then", "once"].map String.toList

/-- Models `extractKeywords`: lower-case, replace non-word non-space
characters by spaces, split on whitespace, keep words longer than 2 that
are not stop words, deduplicate keeping first occurrences, cap at 10. -/
def extractKeywords (question : Str) : List Str :=
  let cleaned := (toLowerStr question).map
    (fun c => if isWordChar c || isWs c then c else ' ')
  let words := (splitWS cleaned).filter
    (fun w => 2 < w.length && !(stopWords.contains w))
  (dedupFirst words).take 10

/-- `seqMatch a b s`: some occurrence of `a` in `s` is followed (at or after
its end) by an occurrence of `b`; models the regex fragment `a.*b`. -/
def seqMatch (a b : Str) : Str → Bool
  | [] => a.isPrefixOf [] && containsSub b []
  | c :: t =>
    (a.isPrefixOf (c :: t) && containsSub b (List.drop a.length (c :: t)))
      || seqMatch a b t

/-- `containsAny s pats` is true iff some pattern occurs in `s`;
models a regex alternation of literals. -/
def containsAny (s : Str) (pats : List Str) : Bool :=
  pats.any (fun p => containsSub p s)

/-- The code-location test of `classifyQuestion`:
`/(where|find|locate|which file|what file|show me).*(function|class|method|code|implementation)/`. -/
def matchCodeLocation (q : Str) : Bool :=
  (["where", "find", "locate", "which file", "what file", "show me"].map String.toList).any
    (fun a => (["function", "class", "method", "code", "implementation"].map String.toList).any
      (fun b => seqMatch a b q))

/-- The architecture test of `classifyQuestion`:
`/(architecture|architectural|system design|design pattern|layers|components|structure)/`. -/
def matchArchitecture (q : Str) : Bool :=
  containsAny q (["architecture", "architectural", "system design",
    "design pattern", "layers", "components", "structure"].map String.toList)

/-- The flow test of `classifyQuestion`: `/(how.*work|flow|process|sequence|pipeline)/`. -/
def matchFlow (q : Str) : Bool :=
  seqMatch ("how".toList) ("work".toList) q ||
    containsAny q (["flow", "process", "sequence", "pipeline"].map String.toList)

/-- The bug-analysis test of `classifyQuestion`:
`/(bug|error|issue|problem|fix|broken|wrong|why.*not|why.*fail)/`. -/
def matchBug (q : Str) : Bool :=
  containsAny q (["bug", "error", "issue", "problem", "fix", "broken", "wrong"].map String.toList)
    || seqMatch ("why".toList) ("not".toList) q
    || seqMatch ("why".toList) ("fail".toList) q

/-- The improvement test of `classifyQuestion`:
`/(improve|better|optimize|refactor|enhance|suggest)/`. -/
def matchImprovement (q : Str) : Bool :=
  containsAny q (["improve", "better", "optimize", "refactor", "enhance", "suggest"].map String.toList)

/-- The documentation test of `classifyQuestion`:
`/(readme|document|doc|explain|describe|what is|tell me about)/`. -/
def matchDocumentation (q : Str) : Bool :=
  containsAny q (["readme", "document", "doc", "explain", "describe",
    "what is", "tell me about"].map String.toList)

/-- The explanation test of `classifyQuestion`:
`/(explain|how|what does|why|meaning|purpose)/`. -/
def matchExplanation (q : Str) : Bool :=
  containsAny q (["explain", "how", "what does", "why", "meaning", "purpose"].map String.toList)

/-- Models `classifyQuestion`: the ordered first-match-wins intent tests on
the lower-cased question, with keyword extraction. -/
def classifyQuestion (question : Str) : QClass :=
  let ql := toLowerStr question
  if matchCodeLocation ql then ⟨.codeLocation, extractKeywords question⟩
  else if matchArchitecture ql then ⟨.architecture, extractKeywords question⟩
  else if matchFlow ql then ⟨.flow, extractKeywords question⟩
  else if matchBug ql then ⟨.bugAnalysis, extractKeywords question⟩
  else if matchImprovement ql then ⟨.improvement, extractKeywords question⟩
  else if matchDocumentation ql then ⟨.documentation, extractKeywords question⟩
  else if matchExplanation ql then ⟨.explanation, extractKeywords question⟩
  else ⟨.general, extractKeywords question⟩

/-! ## Relevance scorer (`selectFilesWithScoring`) -/

/-- The scorer's per-file output (`FileWithScore` in the source). -/
structure FileWithScore where
  path : Str
  score : Nat
  reason : Str
deriving DecidableEq, Repr

/-- `endsWithAny l exts`: some extension of `exts` is a suffix of `l`;
models regexes of the shape `/\.(e1|e2|...)$/`. -/
def endsWithAny (l : Str) (exts : List Str) : Bool :=
  exts.any (fun e => e.isSuffixOf l)

/-- The code-file extensions of scoring rule 3: `/\.(ts|tsx|js|jsx|py|java|go|rs|rb)$/`. -/
def codeExts : List Str :=
  [".ts", ".tsx", ".js", ".jsx", ".py", ".java", ".go", ".rs", ".rb"].map String.toList

/-- The script extensions of scoring rule 4 and of the neighbor expander:
`/\.(ts|tsx|js|jsx|py)$/`. -/
def scriptExts : List Str := [".ts", ".tsx", ".js", ".jsx", ".py"].map String.toList

/-- Documentation extensions of scoring rule: `/\.(md|txt|rst)$/i`. -/
def docExts : List Str := [".md", ".txt", ".rst"].map String.toList

/-- Structured-config extensions: `/\.(json|yaml|yml|toml|ini|conf)$/i`. -/
def configExts : List Str :=
  [".json", ".yaml", ".yml", ".toml", ".ini", ".conf"].map String.toList

/-- Dependency-manifest base names of scoring rule 4 in the source. -/
def depFileNames : List Str :=
  ["package.json", "package-lock.json", "requirements.txt", "pom.xml", "cargo.toml"].map String.toList

/-- Joins reason strings with `', '`, models `reasons.join(', ')`. -/
def joinComma : List Str → Str
  | [] => []
  | [r] => r
  | r :: r₂ :: rs => r ++ ", ".toList ++ joinComma (r₂ :: rs)

/-- The score and reasons `selectFilesWithScoring` accumulates for one path. -/
def scoreFile (question : Str) (qc : QClass) (filePath : Str) : Nat × List Str :=
  let filename := toLowerStr (lastSeg filePath)
  let pathLower := toLowerStr filePath
  let s₁ : Nat × List Str :=
    if containsSub filename (toLowerStr question) then
      (50, ["exact filename match".toList]) else (0, [])
  let s₂ : Nat × List Str := qc.keywords.foldl
    (fun acc kw =>
      if containsSub kw pathLower then
        (acc.1 + 20, acc.2 ++ ["keyword \"".toList ++ kw ++ "\" in path".toList])
      else acc) s₁
  let s₃ : Nat × List Str :=
    if (qc.type = .codeLocation || qc.type = .explanation) && endsWithAny filePath codeExts then
      (s₂.1 + 15, s₂.2 ++ ["code file for code-location question".toList]) else s₂
  let s₄ : Nat × List Str :=
    if (qc.type = .flow || qc.type = .architecture) && endsWithAny filePath scriptExts
        && (containsSub ("route".toList) pathLower || containsSub ("api".toList) pathLower
            || containsSub ("controller".toList) pathLower) then
      (s₃.1 + 25, s₃.2 ++ ["route/api file for flow question".toList]) else s₃
  let s₅ : Nat × List Str :=
    if qc.type = .documentation
        && (endsWithAny (toLowerStr filePath) docExts || filename = "readme.md".toList) then
      (s₄.1 + 30, s₄.2 ++ ["documentation file".toList]) else s₄
  let s₆ : Nat × List Str :=
    if depFileNames.contains filename then
      (s₅.1 + 10, s₅.2 ++ ["dependency file".toList]) else s₅
  let s₇ : Nat × List Str :=
    if filename = "readme.md".toList || filename = "readme.txt".toList then
      (s₆.1 + 15, s₆.2 ++ ["readme file".toList]) else s₆
  if qc.type = .explanation && endsWithAny (toLowerStr filePath) configExts then
    (s₇.1 + 5, s₇.2 ++ ["config file".toList]) else s₇

/-- Stable descending insertion for `FileWithScore`, models the stable
JS `sort((a, b) => b.score - a.score)`. -/
def insertDesc (x : FileWithScore) : List FileWithScore → List FileWithScore
  | [] => [x]
  | y :: t => if y.score ≤ x.score then x :: y :: t else y :: insertDesc x t

/-- Stable sort by descending score. -/
def sortByScoreDesc (l : List FileWithScore) : List FileWithScore :=
  l.foldr insertDesc []

/-- Models `selectFilesWithScoring`: score every path with the additive
rules, keep the paths with positive score, sort by descending score
(stable), and keep the top 30. -/
def selectFilesWithScoring (question : Str) (fileTree : List Str) (qc : QClass) :
    List FileWithScore :=
  let scores := fileTree.filterMap (fun filePath =>
    let sc := scoreFile question qc filePath
    if 0 < sc.1 then some ⟨filePath, sc.1, joinComma sc.2⟩ else none)
  (sortByScoreDesc scores).take 30

/-! ## Neighbor expander (`expandWithNeighbors`) and `enhancedFileSelection` -/

/-- Appends each element of `l` that is not yet present, models repeated
`Set.prototype.add`. -/
def addUnique (expanded : List Str) : List Str → List Str
  | [] => expanded
  | f :: t => if expanded.contains f then addUnique expanded t
              else addUnique (expanded ++ [f]) t

/-- The sibling rule of `expandWithNeighbors`: up to 3 files of the tree
whose path extends the selected path's directory prefix `dir + '/'` and
that are not already included. -/
def siblingsOf (expanded : List Str) (fileTree : List Str) (filePath : Str) : List Str :=
  let dir := dirOf filePath
  if dir = [] then []
  else (fileTree.filter (fun f =>
    (dir ++ ['/']).isPrefixOf f && f ≠ filePath && !expanded.contains f)).take 3

/-- The grandparent rule of `expandWithNeighbors`: for a path nested more
than one level deep, up to 2 not-yet-included script files under the
grandparent directory. -/
def parentFilesOf (expanded : List Str) (fileTree : List Str) (filePath : Str) : List Str :=
  let parts := splitSlash filePath
  if 2 < parts.length then
    let parentDir := joinSlash (parts.dropLast.dropLast)
    (fileTree.filter (fun f =>
      (parentDir ++ ['/']).isPrefixOf f && f ≠ filePath && !expanded.contains f
        && endsWithAny f scriptExts)).take 2
  else []

/-- Models `expandWithNeighbors`: start from the (deduplicated) selection and
add sibling and grandparent files for each selected path. -/
def expandWithNeighbors (selectedFiles : List Str) (fileTree : List Str) : List Str :=
  selectedFiles.foldl
    (fun expanded filePath =>
      let expanded₂ := addUnique expanded (siblingsOf expanded fileTree filePath)
      addUnique expanded₂ (parentFilesOf expanded₂ fileTree filePath))
    (dedupFirst selectedFiles)

/-- The always-useful file list of `enhancedFileSelection`. -/
def importantFiles : List Str :=
  ["README.md", "package.json", "tsconfig.json", "requirements.txt"].map String.toList

/-- The important-file step of `enhancedFileSelection`: for each important
name, find the first tree path ending with it and append it if missing. -/
def addImportantFiles (expanded : List Str) (fileTree : List Str) : List Str :=
  importantFiles.foldl
    (fun acc important =>
      match fileTree.find? (fun f => important.isSuffixOf f) with
      | some found => if acc.contains found then acc else acc ++ [found]
      | none => acc) expanded

/-- Models `enhancedFileSelection`: classify, score, threshold at 10, cap at
20, expand with neighbors, append important files, cap at 30. -/
def enhancedFileSelection (question : Str) (fileTree : List Str) : List Str :=
  let qc := classifyQuestion question
  let scoredFiles := selectFilesWithScoring question fileTree qc
  let topFiles := ((scoredFiles.filter (fun f => 10 ≤ f.score)).take 20).map (·.path)
  let expanded := expandWithNeighbors topFiles fileTree
  (addImportantFiles expanded fileTree).take 30

/-! ## Bypass matcher (the mentioned-file branch of `analyzeFileSelection`) -/

/-- The per-path test of the bypass: the path's base name occurs in the
question, case-insensitively; a path with an empty base name never matches. -/
def mentionMatch (question : Str) (path : Str) : Bool :=
  let filename := lastSeg path
  if filename = [] then false
  else containsSub (toLowerStr filename) (toLowerStr question)

/-- The mentioned-files list of `analyzeFileSelection`. -/
def mentionedFilesOf (question : Str) (fileTree : List Str) : List Str :=
  fileTree.filter (mentionMatch question)

/-- The always-useful context files appended on the bypass path. -/
def commonFiles : List Str :=
  ["package.json", "README.md", "tsconfig.json"].map String.toList

/-- The additional context files the bypass appends: tree entries that are
literally one of `commonFiles` and were not mentioned. -/
def additionalContextOf (question : Str) (fileTree : List Str) : List Str :=
  fileTree.filter (fun f =>
    commonFiles.contains f && !(mentionedFilesOf question fileTree).contains f)

/-- Models the smart-bypass branch of `analyzeFileSelection`: when the
question mentions at least one base name, return the mentioned files plus
the available common files, capped at 10.  `none` models falling through
to the query cache and the LLM selection (external collaborators). -/
def analyzeFileSelection (question : Str) (fileTree : List Str) : Option (List Str) :=
  let mentionedFiles := mentionedFilesOf question fileTree
  if mentionedFiles = [] then none
  else some ((mentionedFiles ++ additionalContextOf question fileTree).take 10)

/-! ## TTL cache (`cache.ts`) -/

/-- A cache entry: value plus absolute expiry time in milliseconds. -/
structure CEntry (α : Type) where
  data : α
  expires : Nat
deriving DecidableEq, Repr

/-- The in-memory cache map, modelled as an association list in insertion
order (JS `Map` iteration order). -/
abbrev CacheMap (α : Type) : Type := List (Str × CEntry α)

/-- Keys are unique in a JS `Map`; invariant carried by the theorems. -/
def nodupKeys {α : Type} (m : CacheMap α) : Prop :=
  (m.map (·.1)).Nodup

/-- Models `Map.prototype.set`: update the value in place when the key is
present, otherwise append. -/
def mapSet {α : Type} (m : CacheMap α) (k : Str) (v : CEntry α) : CacheMap α :=
  if m.any (fun kv => kv.1 = k) then
    m.map (fun kv => if kv.1 = k then (k, v) else kv)
  else m ++ [(k, v)]

/-- Models `Map.prototype.get` as an option. -/
def mapGet {α : Type} (m : CacheMap α) (k : Str) : Option (CEntry α) :=
  (m.find? (fun kv => kv.1 = k)).map (·.2)

/-- Models `cleanExpired`: drop every entry with `expires < now`. -/
def cleanExpired {α : Type} (now : Nat) (m : CacheMap α) : CacheMap α :=
  m.filter (fun kv => !decide (kv.2.expires < now))

/-- The query-selection cache key
`query:${owner}/${repo}:${query.toLowerCase().trim()}`. -/
def queryKey (owner repo query : Str) : Str :=
  "query:".toList ++ owner ++ "/".toList ++ repo ++ ":".toList ++ trimStr (toLowerStr query)

/-- Models `cacheQuerySelection`: store the selected files under the
normalized query key with a 24-hour TTL. -/
def cacheQuerySelection (owner repo query : Str) (files : List Str) (now : Nat)
    (m : CacheMap (List Str)) : CacheMap (List Str) :=
  mapSet m (queryKey owner repo query) ⟨files, now + 86400 * 1000⟩

/-- Models `getCachedQuerySelection`: sweep expired entries, then look the
normalized key up; `none` models the JS `null`. -/
def getCachedQuerySelection (owner repo query : Str) (now : Nat)
    (m : CacheMap (List Str)) : Option (List Str) :=
  (mapGet (cleanExpired now m) (queryKey owner repo query)).map (·.data)

/-! ## Context normalizer (`normalizeContext`) -/

/-- A header line `--- FILE: <path> ---`: models
`line.startsWith('--- FILE: ') && line.endsWith(' ---')`. -/
def isHeaderLine (l : Str) : Bool :=
  ("--- FILE: ".toList).isPrefixOf l && (" ---".toList).isSuffixOf l

/-- The path of a header line: models
`line.replace('--- FILE: ', '').replace(' ---', '').trim()`. -/
def headerPath (l : Str) : Str :=
  trimStr (replaceFirst (" ---".toList) (replaceFirst ("--- FILE: ".toList) l))

/-- A blank line: models `line.trim() === ''`. -/
def isBlankLine (l : Str) : Bool := trimStr l = []

/-- Lines retained even outside a file block: models
`line.includes('NOTE:') || line.includes('CONTEXT')`. -/
def alwaysKeep (l : Str) : Bool :=
  containsSub ("NOTE:".toList) l || containsSub ("CONTEXT".toList) l

/-- The loop state of `normalizeContext`: the seen file paths, the current
file (`null` after a duplicate header), the last-was-empty flag, and
whether some line has been pushed (`normalized.length > 0`). -/
structure NState where
  seen : List Str
  cur : Option Str
  lastE : Bool
  ne : Bool
deriving Repr

/-- The line loop of `normalizeContext`, emitting the pushed lines in
order.  Mirrors the source loop exactly; `st.ne` stands for
`normalized.length !== 0`. -/
def normGo (st : NState) : List Str → List Str
  | [] => []
  | l :: rest =>
    if isHeaderLine l then
      let p := headerPath l
      if st.seen.contains p then normGo ⟨st.seen, none, st.lastE, st.ne⟩ rest
      else l :: normGo ⟨p :: st.seen, some p, false, true⟩ rest
    else if isBlankLine l then
      if st.lastE || !st.ne then normGo st rest
      else if st.cur.isSome || alwaysKeep l then
        l :: normGo ⟨st.seen, st.cur, true, true⟩ rest
      else normGo ⟨st.seen, st.cur, true, st.ne⟩ rest
    else
      if st.cur.isSome || alwaysKeep l then
        l :: normGo ⟨st.seen, st.cur, false, true⟩ rest
      else normGo ⟨st.seen, st.cur, false, st.ne⟩ rest

/-- The state after the loop has processed the given lines (used to reason
about `normGo` on an appended list). -/
def nstate (st : NState) : List Str → NState
  | [] => st
  | l :: rest =>
    if isHeaderLine l then
      let p := headerPath l
      if st.seen.contains p then nstate ⟨st.seen, none, st.lastE, st.ne⟩ rest
      else nstate ⟨p :: st.seen, some p, false, true⟩ rest
    else if isBlankLine l then
      if st.lastE || !st.ne then nstate st rest
      else if st.cur.isSome || alwaysKeep l then nstate ⟨st.seen, st.cur, true, true⟩ rest
      else nstate ⟨st.seen, st.cur, true, st.ne⟩ rest
    else
      if st.cur.isSome || alwaysKeep l then nstate ⟨st.seen, st.cur, false, true⟩ rest
      else nstate ⟨st.seen, st.cur, false, st.ne⟩ rest

/-- The initial loop state of `normalizeContext`. -/
def initState : NState := ⟨[], none, false, false⟩

/-- The trailing `while`-pop of `normalizeContext`: remove trailing blank
lines. -/
def dropLastBlanks (lines : List Str) : List Str :=
  (lines.reverse.dropWhile isBlankLine).reverse

/-- The line-level normalizer. -/
def normalizeLines (lines : List Str) : List Str :=
  dropLastBlanks (normGo initState lines)

/-- Models `normalizeContext`. -/
def normalizeContext (context : Str) : Str :=
  if context = [] then []
  else joinNl (normalizeLines (splitNl context))

/-! ## Context assembler (`fetchRepoFiles`) -/

/-- Line numbering of a file's content: every line of the split content is
prefixed by its right-justified 4-character 1-based number and `' | '`. -/
def numberContent (content : Str) : Str :=
  joinNl ((splitNl content).enum.map
    (fun il => pad4 (natToStr (il.1 + 1)) ++ " | ".toList ++ il.2))

/-- A file block appended to the running context:
`\n--- FILE: ${path} ---\n${numberedContent}\n`. -/
def fileBlock (path numbered : Str) : Str :=
  "\n--- FILE: ".toList ++ path ++ " ---\n".toList ++ numbered ++ "\n".toList

/-- The truncation notice appended when the budget would be exceeded. -/
def truncNotice (budget : Nat) : Str :=
  "\n--- NOTE: Context truncated due to token limit (".toList ++ natToStr budget
    ++ " tokens) ---\n".toList

/-- The per-file loop of `fetchRepoFiles`: files without content (absent or
empty, the JS falsy check) are skipped; a file whose numbered block would
push the counted total past the budget stops assembly with the notice,
discarding the remaining files. -/
def assembleAux (tok : Str → Nat) (ctx : Str) (cnt : Nat) (budget : Nat) :
    List (Str × Option Str) → Str
  | [] => ctx
  | (path, content) :: rest =>
    match content with
    | none => assembleAux tok ctx cnt budget rest
    | some c =>
      if c = [] then assembleAux tok ctx cnt budget rest
      else
        let numbered := numberContent c
        let fileTokens := tok numbered
        if budget < cnt + fileTokens then ctx ++ truncNotice budget
        else assembleAux tok (ctx ++ fileBlock path numbered) (cnt + fileTokens) budget rest

/-- The final counted token total of the assembly loop. -/
def assembleCount (tok : Str → Nat) (cnt : Nat) (budget : Nat) :
    List (Str × Option Str) → Nat
  | [] => cnt
  | (_, content) :: rest =>
    match content with
    | none => assembleCount tok cnt budget rest
    | some c =>
      if c = [] then assembleCount tok cnt budget rest
      else
        let fileTokens := tok (numberContent c)
        if budget < cnt + fileTokens then cnt
        else assembleCount tok (cnt + fileTokens) budget rest

/-- The fallback text used when no file contributed content. -/
def noFilesMsg : Str := "No specific files were selected.".toList

/-- Models the context construction of `fetchRepoFiles` (with the token
counter and the budget as parameters): run the assembly loop from an empty
document, substitute the fallback text when it stays empty, then normalize. -/
def fetchRepoFiles (tok : Str → Nat) (files : List (Str × Option Str)) (budget : Nat) : Str :=
  let ctx := assembleAux tok [] 0 budget files
  normalizeContext (if ctx = [] then noFilesMsg else ctx)

/-! ## Citation validator (`validateLineNumbers`) -/

/-- A `[file:path:line]` or `[file:path:start-end]` reference parsed from the
model's answer.  Per the source, `endL` equals the parsed end when the
range form is used and the start otherwise. -/
structure Citation where
  path : Str
  startL : Nat
  endL : Nat
deriving DecidableEq, Repr

/-- One context-index record (`FileInfo` in the source). -/
structure FileInfo where
  path : Str
  startLine : Nat
  endLine : Nat
  lineCount : Nat
deriving DecidableEq, Repr

/-- The path character class `[^\]:]` of the citation regex. -/
def pathChar (c : Char) : Bool := c ≠ ']' && c ≠ ':'

/-- Attempts to match the citation regex
`\[file:([^\]:]+):(\d+)(?:-(\d+))?\]` at the start of `s`; the extracted
path is trimmed and the line numbers parsed, as in the source. -/
def tryCite (s : Str) : Option Citation :=
  match s with
  | '[' :: 'f' :: 'i' :: 'l' :: 'e' :: ':' :: rest =>
    let p := rest.takeWhile pathChar
    if p = [] then none
    else
      match rest.dropWhile pathChar with
      | ':' :: r₂ =>
        let ds := r₂.takeWhile Char.isDigit
        if ds = [] then none
        else
          match r₂.dropWhile Char.isDigit with
          | ']' :: _ => some ⟨trimStr p, parseNat ds, parseNat ds⟩
          | '-' :: r₅ =>
            let ds₂ := r₅.takeWhile Char.isDigit
            if ds₂ = [] then none
            else
              match r₅.dropWhile Char.isDigit with
              | ']' :: _ => some ⟨trimStr p, parseNat ds, parseNat ds₂⟩
              | _ => none
          | _ => none
      | _ => none
  | _ => none

/-- All citations of the answer, in order.  Scanning every position agrees
with the JS global-regex scan for this pattern: a second `[file:` header
strictly inside a match would need a colon inside the path group, which the
class `[^\]:]` excludes, so matches of the pattern never overlap. -/
def extractCites : Str → List Citation
  | [] => []
  | c :: t =>
    match tryCite (c :: t) with
    | some cit => cit :: extractCites t
    | none => extractCites t

/-- Index lookup, models `contextIndex[filePath]` on a JS object. -/
def lookupIdx (idx : List (Str × FileInfo)) (p : Str) : Option FileInfo :=
  (idx.find? (fun kv => kv.1 = p)).map (·.2)

/-- The file-not-found message of `validateLineNumbers`. -/
def notFoundMsg (p : Str) : Str :=
  "File \"".toList ++ p ++ "\" not found in context".toList

/-- The out-of-range message for a citation's start line. -/
def lineMsg (startL : Nat) (p : Str) (info : FileInfo) : Str :=
  "Line ".toList ++ natToStr startL ++ " in \"".toList ++ p
    ++ "\" is out of range (file has lines ".toList ++ natToStr info.startLine
    ++ "-".toList ++ natToStr info.endLine ++ ")".toList

/-- The out-of-range message for a citation's line range. -/
def rangeMsg (startL endL : Nat) (p : Str) (info : FileInfo) : Str :=
  "Line range ".toList ++ natToStr startL ++ "-".toList ++ natToStr endL
    ++ " in \"".toList ++ p ++ "\" is out of range (file has lines ".toList
    ++ natToStr info.startLine ++ "-".toList ++ natToStr info.endLine ++ ")".toList

/-- The errors one citation contributes: not-found, else the start check and
the end check; the end check is skipped when `endL` is `0` (the JS `if
(endLine && ...)` falsiness guard). -/
def citeErrors (idx : List (Str × FileInfo)) (c : Citation) : List Str :=
  match lookupIdx idx c.path with
  | none => [notFoundMsg c.path]
  | some info =>
    (if c.startL < info.startLine || info.endLine < c.startL then
      [lineMsg c.startL c.path info] else [])
    ++ (if c.endL ≠ 0 && (c.endL < info.startLine || info.endLine < c.endL) then
      [rangeMsg c.startL c.endL c.path info] else [])

/-- The error list over all citations, in citation order. -/
def allCiteErrors (idx : List (Str × FileInfo)) : List Citation → List Str
  | [] => []
  | c :: t => citeErrors idx c ++ allCiteErrors idx t

/-- The validator's result shape. -/
structure VResult where
  valid : Bool
  errors : List Str
deriving DecidableEq, Repr

/-- Models `validateLineNumbers`. -/
def validateLineNumbers (answer : Str) (contextIndex : List (Str × FileInfo)) : VResult :=
  let errs := allCiteErrors contextIndex (extractCites answer)
  ⟨errs.isEmpty, errs⟩

/-- Simulation relation between the normalizer loop state of a first pass
(`a`) and of a second pass over the first pass's output (`b`): the second
pass has seen no path the first has not, and whenever the first pass is
inside a file block the two states agree on the blank-line bookkeeping. -/
def NRel (a b : NState) : Prop :=
  (∀ p ∈ b.seen, p ∈ a.seen) ∧
  (a.cur = none ∨ (b.cur.isSome = true ∧ a.lastE = b.lastE ∧ a.ne = b.ne))

/-! ## Helper lemmas -/

theorem contains_mem (l : List Str) (a : Str) : l.contains a = true ↔ a ∈ l := by
  induction l with
  | nil => simp
  | cons b t ih => simp [List.contains_cons] at ih ⊢

/-- A pattern found by `containsSub` has all its characters in the text. -/
theorem containsSub_mem {pat l : Str} (h : containsSub pat l = true) :
    ∀ c ∈ pat, c ∈ l := by
  induction l with
  | nil =>
    simp only [containsSub] at h
    have : pat = [] := by
      cases pat with
      | nil => rfl
      | cons c t => simp [List.isPrefixOf] at h
    simp [this]
  | cons b t ih =>
    simp only [containsSub, Bool.or_eq_true] at h
    rcases h with h | h
    · intro c hc
      exact (List.isPrefixOf_iff_prefix.mp h).sublist.subset hc
    · intro c hc
      exact List.mem_cons_of_mem b (ih h c hc)

/-- An element preceded by fewer than 10 entries survives `take 10`. -/
theorem mem_take_ten (xs ys : List Str) (a : Str) (h : xs.length < 10) :
    a ∈ (xs ++ a :: ys).take 10 := by
  rw [List.take_append_eq_append_take, List.take_of_length_le (Nat.le_of_lt h)]
  apply List.mem_append_right
  obtain ⟨k, hk⟩ : ∃ k, 10 - xs.length = k + 1 := ⟨9 - xs.length, by omega⟩
  rw [hk, List.take_succ_cons]
  exact List.mem_cons_self a _

/-- The counted token total of the assembly loop never exceeds the budget. -/
theorem assembleCount_le (tok : Str → Nat) (budget : Nat)
    (files : List (Str × Option Str)) (cnt : Nat) (h : cnt ≤ budget) :
    assembleCount tok cnt budget files ≤ budget := by
  induction files generalizing cnt with
  | nil => simpa [assembleCount] using h
  | cons f rest ih =>
    obtain ⟨path, content⟩ := f
    cases content with
    | none => simpa [assembleCount] using ih cnt h
    | some c =>
      by_cases hc : c = []
      · simpa [assembleCount, hc] using ih cnt h
      · by_cases hb : budget < cnt + tok (numberContent c)
        · simpa [assembleCount, hc, hb] using h
        · simpa [assembleCount, hc, hb] using ih _ (Nat.le_of_not_lt hb)

/-! ## Claim C1: the assembler's budget invariant -/

/-- Claim C1 (counterexample): with the token counter that counts
characters, a single one-character file and budget 10, the assembler
appends the block (its counted cost is 8 ≤ 10), yet the produced context
document has 24 tokens — the uncounted `--- FILE: ---` header text pushes
the document past the budget, so `tokenCount(assemble(files, budget)) ≤
budget` fails. -/
theorem claim1_budget_counterexample :
    10 < List.length (fetchRepoFiles List.length
      [("p".toList, some ("a".toList))] 10) := by decide

/-- Claim C1 (amended): the *counted* running total of appended numbered
blocks never exceeds the budget, and a file with content whose block cost
would push the total past the budget stops assembly at once, appending the
truncation notice and discarding every remaining file; the document itself
may still exceed the budget by the uncounted header and notice text. -/
theorem claim1_budget_amended (tok : Str → Nat) (budget : Nat)
    (files : List (Str × Option Str)) :
    assembleCount tok 0 budget files ≤ budget ∧
    (∀ (ctx : Str) (cnt : Nat) (path c : Str) (rest : List (Str × Option Str)),
      c ≠ [] → budget < cnt + tok (numberContent c) →
      assembleAux tok ctx cnt budget ((path, some c) :: rest) = ctx ++ truncNotice budget) := by
  refine ⟨assembleCount_le tok budget files 0 (Nat.zero_le budget), ?_⟩
  intro ctx cnt path c rest hc hgt
  simp [assembleAux, hc, hgt]

/-- Claim C1 (witness): the amended theorem at the counterexample's input
and at a blocked file (cost 11 against remaining budget 2). -/
theorem claim1_budget_witness :
    assembleCount List.length 0 10 [("p".toList, some ("a".toList))] ≤ 10 ∧
    assembleAux List.length [] 8 10 [("q".toList, some ("bbbb".toList))]
      = [] ++ truncNotice 10 := by
  have h := claim1_budget_amended List.length 10 [("p".toList, some ("a".toList))]
  exact ⟨h.1, h.2 [] 8 ("q".toList) ("bbbb".toList) [] (by decide) (by decide)⟩

/-! ## Claim C2: the login scenario scores -/

/-- Claim C2 (counterexample): for the tree
`["src/auth/login.ts", "src/auth/session.ts", "README.md"]` and the query
`"how does login work"`, the scorer assigns `src/auth/login.ts` the score
20 — not ≥ 70, because the query does not contain the literal base name
`login.ts`, so the +50 filename rule cannot fire.  (`session.ts` is indeed
excluded.) -/
theorem claim2_scoring_counterexample :
    (selectFilesWithScoring ("how does login work".toList)
        ["src/auth/login.ts".toList, "src/auth/session.ts".toList, "README.md".toList]
        (classifyQuestion ("how does login work".toList))).map
        (fun f => (f.path, f.score))
      = [("src/auth/login.ts".toList, 20), ("README.md".toList, 15)] := by decide

/-- Claim C2 (amended): in the scenario the scorer gives
`src/auth/login.ts` the score 20 (one keyword match: `login`), gives
`src/auth/session.ts` the score 0 so that it is excluded from the scored
output, and gives `README.md` the score 15 (readme rule). -/
theorem claim2_scoring_amended :
    (scoreFile ("how does login work".toList)
        (classifyQuestion ("how does login work".toList)) ("src/auth/login.ts".toList)).1 = 20 ∧
    (scoreFile ("how does login work".toList)
        (classifyQuestion ("how does login work".toList)) ("src/auth/session.ts".toList)).1 = 0 ∧
    (selectFilesWithScoring ("how does login work".toList)
        ["src/auth/login.ts".toList, "src/auth/session.ts".toList, "README.md".toList]
        (classifyQuestion ("how does login work".toList))).map
        (fun f => (f.path, f.score))
      = [("src/auth/login.ts".toList, 20), ("README.md".toList, 15)] := by decide

/-! ## Claim C3: bypass correctness for an explicitly mentioned file -/

/-- Claim C3 (counterexample): the bypass caps its result at 10 entries, so
when ten earlier tree entries also have base names occurring in
`"explain src/auth.ts please"` (here ten files named `explain`),
`src/auth.ts` is matched but sliced away: the bypass triggers and the
returned selection does not contain `src/auth.ts`. -/
theorem claim3_bypass_counterexample :
    analyzeFileSelection ("explain src/auth.ts please".toList)
        ["d0/explain".toList, "d1/explain".toList, "d2/explain".toList,
         "d3/explain".toList, "d4/explain".toList, "d5/explain".toList,
         "d6/explain".toList, "d7/explain".toList, "d8/explain".toList,
         "d9/explain".toList, "src/auth.ts".toList]
      = some
        ["d0/explain".toList, "d1/explain".toList, "d2/explain".toList,
         "d3/explain".toList, "d4/explain".toList, "d5/explain".toList,
         "d6/explain".toList, "d7/explain".toList, "d8/explain".toList,
         "d9/explain".toList] ∧
    "src/auth.ts".toList ∉
      ["d0/explain".toList, "d1/explain".toList, "d2/explain".toList,
       "d3/explain".toList, "d4/explain".toList, "d5/explain".toList,
       "d6/explain".toList, "d7/explain".toList, "d8/explain".toList,
       "d9/explain".toList] := by decide

/-- Claim C3 (amended): whenever the tree contains `src/auth.ts` and the
query is `"explain src/auth.ts please"`, the bypass triggers and
`src/auth.ts` is among the mentioned files; the returned selection
contains `src/auth.ts` provided fewer than 10 earlier tree entries also
match the query (the bypass slices the list to its first 10 entries). -/
theorem claim3_bypass_amended (t₁ t₂ : List Str) :
    (∃ l, analyzeFileSelection ("explain src/auth.ts please".toList)
        (t₁ ++ "src/auth.ts".toList :: t₂) = some l) ∧
    "src/auth.ts".toList ∈
      mentionedFilesOf ("explain src/auth.ts please".toList)
        (t₁ ++ "src/auth.ts".toList :: t₂) ∧
    ((t₁.filter (mentionMatch ("explain src/auth.ts please".toList))).length < 10 →
      ∀ l, analyzeFileSelection ("explain src/auth.ts please".toList)
          (t₁ ++ "src/auth.ts".toList :: t₂) = some l →
        "src/auth.ts".toList ∈ l) := by
  have hmm : mentionMatch ("explain src/auth.ts please".toList) ("src/auth.ts".toList) = true := by
    decide
  have hsplit : mentionedFilesOf ("explain src/auth.ts please".toList)
      (t₁ ++ "src/auth.ts".toList :: t₂)
      = t₁.filter (mentionMatch ("explain src/auth.ts please".toList))
        ++ "src/auth.ts".toList
          :: t₂.filter (mentionMatch ("explain src/auth.ts please".toList)) := by
    unfold mentionedFilesOf
    rw [List.filter_append, List.filter_cons, hmm]
    simp
  have hmem : "src/auth.ts".toList ∈
      mentionedFilesOf ("explain src/auth.ts please".toList)
        (t₁ ++ "src/auth.ts".toList :: t₂) := by
    rw [hsplit]
    exact List.mem_append_right _ (List.mem_cons_self _ _)
  have hne : mentionedFilesOf ("explain src/auth.ts please".toList)
      (t₁ ++ "src/auth.ts".toList :: t₂) ≠ [] := List.ne_nil_of_mem hmem
  have hsel : analyzeFileSelection ("explain src/auth.ts please".toList)
      (t₁ ++ "src/auth.ts".toList :: t₂)
      = some ((mentionedFilesOf ("explain src/auth.ts please".toList)
          (t₁ ++ "src/auth.ts".toList :: t₂)
        ++ additionalContextOf ("explain src/auth.ts please".toList)
          (t₁ ++ "src/auth.ts".toList :: t₂)).take 10) := by
    simp only [analyzeFileSelection]
    rw [if_neg hne]
  refine ⟨⟨_, hsel⟩, hmem, ?_⟩
  · intro hlen l hl
    rw [hsel] at hl
    have hl' := Option.some.inj hl
    subst hl'
    rw [hsplit, List.append_assoc, List.cons_append]
    exact mem_take_ten _ _ _ hlen

/-- Claim C3 (witness): the amended theorem at the one-file tree
`["src/auth.ts"]`. -/
theorem claim3_bypass_witness :
    (∃ l, analyzeFileSelection ("explain src/auth.ts please".toList)
        ([] ++ "src/auth.ts".toList :: []) = some l) ∧
    "src/auth.ts".toList ∈
      mentionedFilesOf ("explain src/auth.ts please".toList)
        ([] ++ "src/auth.ts".toList :: []) ∧
    (∀ l, analyzeFileSelection ("explain src/auth.ts please".toList)
        ([] ++ "src/auth.ts".toList :: []) = some l →
      "src/auth.ts".toList ∈ l) := by
  have h := claim3_bypass_amended [] []
  exact ⟨h.1, h.2.1, h.2.2 (by decide)⟩

/-! ## Claim C7: architecture is classified before explanation -/

/-- Claim C7: the classifier's intent tests run in a fixed order with the
first match winning; the architecture test precedes the explanation test,
so any query matching the architecture pattern but not the code-location
pattern is classified `architecture` — in particular
`"explain the architecture"`, even though the explanation pattern also
matches it. -/
theorem claim7_classifier_order :
    (∀ q : Str, matchArchitecture (toLowerStr q) = true →
      matchCodeLocation (toLowerStr q) = false →
      (classifyQuestion q).type = QType.architecture) ∧
    (classifyQuestion ("explain the architecture".toList)).type = QType.architecture ∧
    matchExplanation (toLowerStr ("explain the architecture".toList)) = true ∧
    (classifyQuestion ("explain the architecture".toList)).type ≠ QType.explanation := by
  refine ⟨?_, by decide, by decide, by decide⟩
  intro q h1 h2
  simp [classifyQuestion, h1, h2]

/-- Claim C7 (witness): the ordering theorem applied to
`"explain the architecture"`. -/
theorem claim7_classifier_order_witness :
    (classifyQuestion ("explain the architecture".toList)).type = QType.architecture :=
  claim7_classifier_order.1 ("explain the architecture".toList) (by decide) (by decide)

/-! ## Claim C8: the sibling rule of the neighbor expander -/

/-- Claim C8 (counterexample): the sibling rule's filter only requires the
selected path's directory as a path *prefix*, so it can add a file from a
deeper subdirectory: expanding `["a/b.ts"]` against
`["a/b.ts", "a/c/d.ts"]` adds `a/c/d.ts`, whose immediate parent
directory `a/c` differs from `a`. -/
theorem claim8_siblings_counterexample :
    expandWithNeighbors ["a/b.ts".toList] ["a/b.ts".toList, "a/c/d.ts".toList]
      = ["a/b.ts".toList, "a/c/d.ts".toList] ∧
    "a/c/d.ts".toList ∈
      siblingsOf ["a/b.ts".toList] ["a/b.ts".toList, "a/c/d.ts".toList] ("a/b.ts".toList) ∧
    dirOf ("a/c/d.ts".toList) ≠ dirOf ("a/b.ts".toList) := by decide

/-- Claim C8 (amended): for every selected path the sibling rule adds at
most 3 not-yet-included files, and every file it adds extends the selected
path's immediate parent directory as a prefix `dir ++ '/'` — possibly
lying in a deeper subdirectory rather than the same directory. -/
theorem claim8_siblings_amended (expanded fileTree : List Str) (filePath : Str) :
    (siblingsOf expanded fileTree filePath).length ≤ 3 ∧
    ∀ f ∈ siblingsOf expanded fileTree filePath,
      (dirOf filePath ++ ['/']).isPrefixOf f = true ∧ f ∉ expanded := by
  unfold siblingsOf
  by_cases h : dirOf filePath = []
  · simp [h]
  · rw [if_neg h]
    constructor
    · exact List.length_take_le 3 _
    · intro f hf
      have hf' := List.mem_of_mem_take hf
      have := List.mem_filter.mp hf'
      have hp := this.2
      simp only [Bool.and_eq_true] at hp
      refine ⟨hp.1.1, ?_⟩
      intro hmem
      have := hp.2
      rw [Bool.not_eq_true', ← Bool.not_eq_true] at this
      exact this ((contains_mem expanded f).mpr hmem)

/-- Claim C8 (witness): the amended theorem at the tree
`["a/b.ts", "a/c.ts"]` with `a/c.ts` a genuine same-directory sibling. -/
theorem claim8_siblings_witness :
    (siblingsOf [] ["a/b.ts".toList, "a/c.ts".toList] ("a/b.ts".toList)).length ≤ 3 ∧
    ((dirOf ("a/b.ts".toList) ++ ['/']).isPrefixOf ("a/c.ts".toList) = true ∧
      "a/c.ts".toList ∉ ([] : List Str)) := by
  have h := claim8_siblings_amended [] ["a/b.ts".toList, "a/c.ts".toList] ("a/b.ts".toList)
  exact ⟨h.1, h.2 ("a/c.ts".toList) (by decide)⟩

/-! ## Claim C10: exact-path common files on the bypass path -/

/-- Claim C10: on the bypass path an always-useful file is appended only
when the tree contains it as that exact full relative path (every appended
file is literally `package.json`, `README.md` or `tsconfig.json`); a
nested `docs/README.md` is never appended there, unlike the
`enhancedFileSelection` important-file step, which matches any path ending
with the file name and does pick `docs/README.md`. -/
theorem claim10_common_exact_path :
    (∀ (question : Str) (fileTree : List Str) (f : Str),
      f ∈ additionalContextOf question fileTree → f ∈ commonFiles) ∧
    analyzeFileSelection ("explain main.ts".toList)
        ["a/main.ts".toList, "docs/README.md".toList] = some ["a/main.ts".toList] ∧
    addImportantFiles [] ["docs/README.md".toList] = ["docs/README.md".toList] := by
  refine ⟨?_, by decide, by decide⟩
  intro q tree f hf
  have := (List.mem_filter.mp hf).2
  simp only [Bool.and_eq_true] at this
  exact (contains_mem commonFiles f).mp this.1

/-- Claim C10 (witness): the exact-path property at a tree containing
`package.json` at top level. -/
theorem claim10_common_exact_path_witness :
    "package.json".toList ∈ commonFiles :=
  claim10_common_exact_path.1 ("explain main.ts".toList)
    ["a/main.ts".toList, "package.json".toList] ("package.json".toList) (by decide)

/-! ## Claim C6: cache round-trip and expiry -/

/-- `mapSet` commutes with a cons whose key differs. -/
theorem mapSet_cons_ne {α : Type} (k₁ : Str) (e₁ : CEntry α) (m : CacheMap α)
    (k : Str) (v : CEntry α) (h : k₁ ≠ k) :
    mapSet ((k₁, e₁) :: m) k v = (k₁, e₁) :: mapSet m k v := by
  unfold mapSet
  by_cases hm : m.any (fun kv => kv.1 = k)
  · simp [List.any_cons, hm, h]
  · simp [List.any_cons, hm, h]

/-- Updating a key not present in a map rewrites nothing. -/
theorem map_update_absent {α : Type} (m : CacheMap α) (k : Str) (v : CEntry α)
    (h : ∀ kv ∈ m, kv.1 ≠ k) :
    m.map (fun kv => if kv.1 = k then (k, v) else kv) = m := by
  induction m with
  | nil => rfl
  | cons kv t ih =>
    have hk := h kv (List.mem_cons_self kv t)
    simp only [List.map_cons, if_neg hk]
    rw [ih (fun x hx => h x (List.mem_cons_of_mem kv hx))]

/-- After a store, sweeping with a clock before the entry's expiry and
looking the key up returns the stored entry (keys unique). -/
theorem lookup_clean_set {α : Type} (m : CacheMap α) (k : Str) (e : CEntry α)
    (now : Nat) (hnd : nodupKeys m) (hexp : ¬ e.expires < now) :
    mapGet (cleanExpired now (mapSet m k e)) k = some e := by
  have hkeepe : (!decide (e.expires < now)) = true := by simp [hexp]
  induction m with
  | nil =>
    simp [mapSet, cleanExpired, mapGet, hexp]
  | cons kv t ih =>
    obtain ⟨k₁, e₁⟩ := kv
    have hnd' : nodupKeys t := ((List.nodup_cons).mp hnd).2
    by_cases hk : k₁ = k
    · subst hk
      have habs : ∀ x ∈ t, x.1 ≠ k₁ := by
        intro x hx
        have := ((List.nodup_cons).mp hnd).1
        intro hxk
        exact this (hxk ▸ List.mem_map_of_mem (·.1) hx)
      rw [mapSet]
      have hany : ((k₁, e₁) :: t).any (fun kv => kv.1 = k₁) = true := by
        simp [List.any_cons]
      rw [if_pos hany]
      simp only [List.map_cons, if_pos rfl]
      rw [map_update_absent t k₁ e habs]
      rw [cleanExpired, List.filter_cons]
      simp only [hkeepe, if_pos]
      rw [mapGet, List.find?_cons_of_pos _ (by simp)]
      rfl
    · rw [mapSet_cons_ne k₁ e₁ t k e hk]
      rw [cleanExpired, List.filter_cons]
      by_cases hkeep : (!decide (e₁.expires < now)) = true
      · rw [if_pos hkeep]
        rw [mapGet, List.find?_cons_of_neg _ (by simp [hk])]
        exact ih hnd'
      · rw [if_neg hkeep]
        exact ih hnd'

/-- After a store, sweeping with a clock past the entry's expiry removes it
and the lookup misses (keys unique). -/
theorem lookup_clean_set_expired {α : Type} (m : CacheMap α) (k : Str) (e : CEntry α)
    (now : Nat) (hnd : nodupKeys m) (hexp : e.expires < now) :
    mapGet (cleanExpired now (mapSet m k e)) k = none := by
  induction m with
  | nil =>
    simp [mapSet, cleanExpired, mapGet, hexp]
  | cons kv t ih =>
    obtain ⟨k₁, e₁⟩ := kv
    have hnd' : nodupKeys t := ((List.nodup_cons).mp hnd).2
    by_cases hk : k₁ = k
    · subst hk
      have habs : ∀ x ∈ t, x.1 ≠ k₁ := by
        intro x hx
        have := ((List.nodup_cons).mp hnd).1
        intro hxk
        exact this (hxk ▸ List.mem_map_of_mem (·.1) hx)
      rw [mapSet]
      have hany : ((k₁, e₁) :: t).any (fun kv => kv.1 = k₁) = true := by
        simp [List.any_cons]
      rw [if_pos hany]
      simp only [List.map_cons, if_pos rfl]
      rw [map_update_absent t k₁ e habs]
      rw [cleanExpired, List.filter_cons]
      have hdropped : (!decide (e.expires < now)) = false := by simp [hexp]
      rw [if_neg (by simp [hdropped])]
      rw [mapGet, List.find?_eq_none.mpr]
      · rfl
      · intro x hx
        have hxt := List.mem_of_mem_filter hx
        simp only [decide_eq_true_eq]
        exact habs x hxt
    · rw [mapSet_cons_ne k₁ e₁ t k e hk]
      rw [cleanExpired, List.filter_cons]
      by_cases hkeep : (!decide (e₁.expires < now)) = true
      · rw [if_pos hkeep]
        rw [mapGet, List.find?_cons_of_neg _ (by simp [hk])]
        exact ih hnd'
      · rw [if_neg hkeep]
        exact ih hnd'

/-- Claim C6: storing a query selection and loading it with the same
namespace and query returns the stored file list while the clock is before
the 24-hour expiry, loading strictly after the expiry instant returns
absent, and — for any state — whatever the load returns comes from a
stored entry that has not expired at the load's clock: an expired entry is
never returned even if not yet evicted. -/
theorem claim6_cache_roundtrip (owner repo query : Str) (files : List Str)
    (m : CacheMap (List Str)) (t tq : Nat) (hnd : nodupKeys m) :
    (tq < t + 86400 * 1000 →
      getCachedQuerySelection owner repo query tq
        (cacheQuerySelection owner repo query files t m) = some files) ∧
    (t + 86400 * 1000 < tq →
      getCachedQuerySelection owner repo query tq
        (cacheQuerySelection owner repo query files t m) = none) ∧
    (∀ (m₀ : CacheMap (List Str)) (t₀ : Nat) (v : List Str),
      getCachedQuerySelection owner repo query t₀ m₀ = some v →
      ∃ e : CEntry (List Str),
        (queryKey owner repo query, e) ∈ m₀ ∧ e.data = v ∧ ¬ e.expires < t₀) := by
  refine ⟨?_, ?_, ?_⟩
  · intro hlt
    rw [getCachedQuerySelection, cacheQuerySelection]
    rw [lookup_clean_set m (queryKey owner repo query) ⟨files, t + 86400 * 1000⟩ tq hnd
      (Nat.lt_asymm hlt)]
    rfl
  · intro hgt
    rw [getCachedQuerySelection, cacheQuerySelection]
    rw [lookup_clean_set_expired m (queryKey owner repo query) ⟨files, t + 86400 * 1000⟩ tq hnd
      hgt]
    rfl
  · intro m₀ t₀ v hload
    rw [getCachedQuerySelection] at hload
    cases hfind : mapGet (cleanExpired t₀ m₀) (queryKey owner repo query) with
    | none => rw [hfind] at hload; cases hload
    | some e =>
      rw [hfind] at hload
      have hv : e.data = v := Option.some.inj hload
      rw [mapGet] at hfind
      cases hf : (cleanExpired t₀ m₀).find? (fun kv => kv.1 = queryKey owner repo query) with
      | none => rw [hf] at hfind; cases hfind
      | some kv =>
        rw [hf] at hfind
        have hkv : kv.2 = e := Option.some.inj hfind
        have hmem := List.mem_of_find?_eq_some hf
        have hpred := List.find?_some hf
        have hkey : kv.1 = queryKey owner repo query := by
          simpa using hpred
        have hin : kv ∈ m₀ := List.mem_of_mem_filter hmem
        have hlive : ¬ kv.2.expires < t₀ := by
          have := (List.mem_filter.mp hmem).2
          simpa using this
        refine ⟨kv.2, ?_, by rw [hkv, hv], by simpa [hkv] using hlive⟩
        rw [← hkey]
        exact hin

/-- Claim C6 (witness): store at time 0, load at time 1 (before expiry) in
an empty cache, and the never-return-expired property at the resulting
state. -/
theorem claim6_cache_witness :
    getCachedQuerySelection ("o".toList) ("r".toList) ("Q".toList) 1
      (cacheQuerySelection ("o".toList) ("r".toList) ("Q".toList) ["f".toList] 0 [])
      = some ["f".toList] ∧
    (∃ e : CEntry (List Str),
      (queryKey ("o".toList) ("r".toList) ("Q".toList), e)
        ∈ cacheQuerySelection ("o".toList) ("r".toList) ("Q".toList) ["f".toList] 0 [] ∧
      e.data = ["f".toList] ∧ ¬ e.expires < 1) := by
  have h := claim6_cache_roundtrip ("o".toList) ("r".toList) ("Q".toList) ["f".toList]
    [] 0 1 (by simp [nodupKeys])
  refine ⟨h.1 (by omega), h.2.2 _ 1 ["f".toList] (h.1 (by omega))⟩

/-! ## Claim C9: citation validation -/

/-- An error contributed by a citation of the list appears in the full
error list. -/
theorem mem_allCiteErrors (idx : List (Str × FileInfo)) (cs : List Citation)
    (c : Citation) (hc : c ∈ cs) (e : Str) (he : e ∈ citeErrors idx c) :
    e ∈ allCiteErrors idx cs := by
  induction cs with
  | nil => cases hc
  | cons c₀ t ih =>
    rw [allCiteErrors]
    rcases List.mem_cons.mp hc with h | h
    · subst h
      exact List.mem_append_left _ he
    · exact List.mem_append_right _ (ih h)

/-- Claim C9 (counterexample): the end-line check is guarded by JS
falsiness, so the citation `[file:src/x.ts:5-0]` — whose end line 0 lies
outside the recorded range 1–10 — produces no error at all and the result
is reported valid. -/
theorem claim9_validator_counterexample :
    validateLineNumbers ("[file:src/x.ts:5-0]".toList)
        [("src/x.ts".toList, ⟨"src/x.ts".toList, 1, 10, 10⟩)]
      = ⟨true, []⟩ ∧
    extractCites ("[file:src/x.ts:5-0]".toList) = [⟨"src/x.ts".toList, 5, 0⟩] ∧
    (0 : Nat) < 1 := by decide

/-- Claim C9 (amended): the validator reports ``file not found`` for each
extracted citation whose path is absent from the index and ``line out of
range`` for each citation whose start — or *nonzero* end — line falls
outside the file's recorded range (an end line of 0 escapes the check via
the JS falsiness guard); the result is valid exactly when the error list
is empty. -/
theorem claim9_validator_amended (answer : Str) (idx : List (Str × FileInfo)) :
    ((validateLineNumbers answer idx).valid = true ↔
      (validateLineNumbers answer idx).errors = []) ∧
    (∀ c ∈ extractCites answer, lookupIdx idx c.path = none →
      notFoundMsg c.path ∈ (validateLineNumbers answer idx).errors) ∧
    (∀ c ∈ extractCites answer, ∀ info, lookupIdx idx c.path = some info →
      (c.startL < info.startLine ∨ info.endLine < c.startL) →
      lineMsg c.startL c.path info ∈ (validateLineNumbers answer idx).errors) ∧
    (∀ c ∈ extractCites answer, ∀ info, lookupIdx idx c.path = some info →
      c.endL ≠ 0 → (c.endL < info.startLine ∨ info.endLine < c.endL) →
      rangeMsg c.startL c.endL c.path info ∈ (validateLineNumbers answer idx).errors) := by
  refine ⟨?_, ?_, ?_, ?_⟩
  · simp [validateLineNumbers, List.isEmpty_iff]
  · intro c hc hnone
    apply mem_allCiteErrors idx _ c hc
    simp [citeErrors, hnone]
  · intro c hc info hinfo hout
    apply mem_allCiteErrors idx _ c hc
    rcases hout with h | h <;> simp [citeErrors, hinfo, h]
  · intro c hc info hinfo hne hout
    apply mem_allCiteErrors idx _ c hc
    rcases hout with h | h <;> simp [citeErrors, hinfo, hne, h]

/-- Claim C9 (witness): the amended theorem at the spec's scenario — the
citation `[file:src/x.ts:999]` against an index where `src/x.ts` spans
lines 1–10 yields the out-of-range error, and the citation of
`src/missing.ts` yields the not-found error. -/
theorem claim9_validator_witness :
    notFoundMsg ("src/missing.ts".toList) ∈
      (validateLineNumbers ("[file:src/x.ts:999] [file:src/missing.ts:1]".toList)
        [("src/x.ts".toList, ⟨"src/x.ts".toList, 1, 10, 10⟩)]).errors ∧
    lineMsg 999 ("src/x.ts".toList) ⟨"src/x.ts".toList, 1, 10, 10⟩ ∈
      (validateLineNumbers ("[file:src/x.ts:999] [file:src/missing.ts:1]".toList)
        [("src/x.ts".toList, ⟨"src/x.ts".toList, 1, 10, 10⟩)]).errors := by
  have h := claim9_validator_amended
    ("[file:src/x.ts:999] [file:src/missing.ts:1]".toList)
    [("src/x.ts".toList, ⟨"src/x.ts".toList, 1, 10, 10⟩)]
  refine ⟨?_, ?_⟩
  · exact h.2.1 ⟨"src/missing.ts".toList, 1, 1⟩ (by decide) (by decide)
  · exact h.2.2.1 ⟨"src/x.ts".toList, 999, 999⟩ (by decide)
      ⟨"src/x.ts".toList, 1, 10, 10⟩ (by decide) (by decide)

/-! ## Normalization machinery (claims C4 and C5) -/

/-- `splitNl` never returns the empty list. -/
theorem splitNl_ne_nil (s : Str) : splitNl s ≠ [] := by
  cases s with
  | nil => simp [splitNl]
  | cons c t =>
    simp only [splitNl]
    split
    · simp
    · split <;> simp

/-- Lines produced by `splitNl` contain no newline. -/
theorem splitNl_no_nl (s : Str) : ∀ l ∈ splitNl s, '\n' ∉ l := by
  induction s with
  | nil =>
    intro l hl
    simp only [splitNl, List.mem_singleton] at hl
    subst hl; simp
  | cons c t ih =>
    intro l hl
    simp only [splitNl] at hl
    by_cases h : c = '\n'
    · rw [if_pos h] at hl
      rcases List.mem_cons.mp hl with h1 | h1
      · subst h1; simp
      · exact ih l h1
    · rw [if_neg h] at hl
      cases hsp : splitNl t with
      | nil => exact absurd hsp (splitNl_ne_nil t)
      | cons l₀ ls =>
        rw [hsp] at hl
        rcases List.mem_cons.mp hl with h1 | h1
        · subst h1
          intro hmem
          rcases List.mem_cons.mp hmem with h2 | h2
          · exact h h2.symm
          · exact ih l₀ (hsp ▸ List.mem_cons_self l₀ ls) h2
        · exact ih l (hsp ▸ List.mem_cons_of_mem l₀ h1)

/-- A newline-free string splits into itself. -/
theorem splitNl_single {l : Str} (h : '\n' ∉ l) : splitNl l = [l] := by
  induction l with
  | nil => rfl
  | cons c t ih =>
    have hc : c ≠ '\n' := fun hc => h (hc ▸ List.mem_cons_self c t)
    have ht : '\n' ∉ t := fun hm => h (List.mem_cons_of_mem c hm)
    simp only [splitNl]
    rw [if_neg hc, ih ht]

/-- Splitting after a newline-free first line peels it off. -/
theorem splitNl_append_nl {l : Str} (r : Str) (h : '\n' ∉ l) :
    splitNl (l ++ '\n' :: r) = l :: splitNl r := by
  induction l with
  | nil => simp [splitNl]
  | cons c t ih =>
    have hc : c ≠ '\n' := fun hc => h (hc ▸ List.mem_cons_self c t)
    have ht : '\n' ∉ t := fun hm => h (List.mem_cons_of_mem c hm)
    simp only [List.cons_append, splitNl]
    rw [if_neg hc, List.append_eq, ih ht]

/-- `splitNl` is a left inverse of `joinNl` on nonempty lists of
newline-free lines. -/
theorem splitNl_join {L : List Str} (hne : L ≠ []) (hnl : ∀ l ∈ L, '\n' ∉ l) :
    splitNl (joinNl L) = L := by
  induction L with
  | nil => exact absurd rfl hne
  | cons l t ih =>
    cases t with
    | nil => exact splitNl_single (hnl l (by simp))
    | cons l₂ ls =>
      rw [joinNl, splitNl_append_nl _ (hnl l (by simp))]
      rw [ih (by simp) (fun x hx => hnl x (List.mem_cons_of_mem l hx))]

/-- Every character of a blank line is whitespace. -/
theorem blank_all_ws {l : Str} (h : isBlankLine l = true) : ∀ c ∈ l, isWs c = true := by
  have htrim : trimStr l = [] := by simpa [isBlankLine] using h
  rw [trimStr, List.reverse_eq_nil_iff] at htrim
  have hdrop : ∀ a ∈ (l.dropWhile isWs).reverse, isWs a = true :=
    List.dropWhile_eq_nil_iff.mp htrim
  intro c hc
  rw [← List.takeWhile_append_dropWhile (p := isWs) (l := l)] at hc
  rcases List.mem_append.mp hc with h1 | h1
  · exact List.mem_takeWhile_imp h1
  · exact hdrop c (List.mem_reverse.mpr h1)

/-- A blank line never carries a `NOTE:`/`CONTEXT` marker. -/
theorem alwaysKeep_of_blank {l : Str} (h : isBlankLine l = true) :
    alwaysKeep l = false := by
  cases hak : alwaysKeep l with
  | false => rfl
  | true =>
    exfalso
    rw [alwaysKeep, Bool.or_eq_true] at hak
    rcases hak with hk | hk
    · have hm := containsSub_mem hk 'N' (by decide)
      have := blank_all_ws h 'N' hm
      simp [isWs] at this
    · have hm := containsSub_mem hk 'C' (by decide)
      have := blank_all_ws h 'C' hm
      simp [isWs] at this

/-- The normalizer loop emits a sublist of its input. -/
theorem normGo_sublist (L : List Str) : ∀ st, List.Sublist (normGo st L) L := by
  induction L with
  | nil => intro st; simp [normGo]
  | cons l rest ih =>
    intro st
    simp only [normGo]
    split
    · split
      · exact (ih _).cons l
      · exact (ih _).cons₂ l
    · split
      · split
        · exact (ih _).cons l
        · split
          · exact (ih _).cons₂ l
          · exact (ih _).cons l
      · split
        · exact (ih _).cons₂ l
        · exact (ih _).cons l

/-- The loop distributes over append, continuing from the intermediate
state. -/
theorem normGo_append (L M : List Str) :
    ∀ st, normGo st (L ++ M) = normGo st L ++ normGo (nstate st L) M := by
  induction L with
  | nil => intro st; simp [normGo, nstate]
  | cons l rest ih =>
    intro st
    by_cases hh : isHeaderLine l = true
    · by_cases hs : st.seen.contains (headerPath l) = true
      · simp only [List.cons_append, normGo, nstate, hh, hs, if_true]
        exact ih _
      · rw [Bool.not_eq_true] at hs
        simp only [List.cons_append, normGo, nstate, hh, hs, if_true,
          Bool.false_eq_true, if_false]
        rw [List.append_eq, ih _]
    · rw [Bool.not_eq_true] at hh
      by_cases hb : isBlankLine l = true
      · by_cases hg : (st.lastE || !st.ne) = true
        · simp only [List.cons_append, normGo, nstate, hh, hb, hg,
            Bool.false_eq_true, if_false, if_true]
          exact ih _
        · rw [Bool.not_eq_true] at hg
          by_cases hk : (st.cur.isSome || alwaysKeep l) = true
          · simp only [List.cons_append, normGo, nstate, hh, hb, hg, hk,
              Bool.false_eq_true, if_false, if_true]
            rw [List.append_eq, ih _]
          · rw [Bool.not_eq_true] at hk
            simp only [List.cons_append, normGo, nstate, hh, hb, hg, hk,
              Bool.false_eq_true, if_false, if_true]
            exact ih _
      · rw [Bool.not_eq_true] at hb
        by_cases hk : (st.cur.isSome || alwaysKeep l) = true
        · simp only [List.cons_append, normGo, nstate, hh, hb, hk,
            Bool.false_eq_true, if_false, if_true]
          rw [List.append_eq, ih _]
        · rw [Bool.not_eq_true] at hk
          simp only [List.cons_append, normGo, nstate, hh, hb, hk,
            Bool.false_eq_true, if_false, if_true]
          exact ih _

/-- Core idempotence engine: a second normalizer pass whose state is
`NRel`-related to the first pass's state keeps every line the first pass
kept. -/
theorem normGo_self (L : List Str) :
    ∀ a b, NRel a b → normGo b (normGo a L) = normGo a L := by
  induction L with
  | nil => intro a b _; simp [normGo]
  | cons l rest ih =>
    intro a b hrel
    obtain ⟨hseen, hcur⟩ := hrel
    by_cases hh : isHeaderLine l = true
    · by_cases hs : a.seen.contains (headerPath l) = true
      · simp only [normGo, hh, hs, if_true]
        exact ih _ b ⟨hseen, Or.inl rfl⟩
      · rw [Bool.not_eq_true] at hs
        have hbs : b.seen.contains (headerPath l) = false := by
          cases hcb : b.seen.contains (headerPath l) with
          | false => rfl
          | true =>
            exfalso
            have hmem := hseen _ ((contains_mem _ _).mp hcb)
            rw [← contains_mem] at hmem
            rw [hmem] at hs
            cases hs
        simp only [normGo, hh, hs, hbs, Bool.false_eq_true, if_false, if_true]
        refine congrArg (l :: ·) (ih _ _ ⟨?_, Or.inr ⟨rfl, rfl, rfl⟩⟩)
        intro p hp
        rcases List.mem_cons.mp hp with h | h
        · exact h ▸ List.mem_cons_self _ _
        · exact List.mem_cons_of_mem _ (hseen _ h)
    · rw [Bool.not_eq_true] at hh
      by_cases hb : isBlankLine l = true
      · by_cases hg : (a.lastE || !a.ne) = true
        · simp only [normGo, hh, hb, hg, Bool.false_eq_true, if_false, if_true]
          exact ih a b ⟨hseen, hcur⟩
        · rw [Bool.not_eq_true] at hg
          obtain ⟨hga1, hga2⟩ := Bool.or_eq_false_iff.mp hg
          have hga2' : a.ne = true := by simpa using hga2
          by_cases hk : (a.cur.isSome || alwaysKeep l) = true
          · have hak := alwaysKeep_of_blank hb
            have hac : a.cur.isSome = true := by
              have hk' : a.cur.isSome = true ∨ alwaysKeep l = true := by simpa using hk
              rcases hk' with h | h
              · exact h
              · rw [hak] at h; cases h
            rcases hcur with hnone | ⟨hbc, hle, hne'⟩
            · rw [hnone] at hac; cases hac
            have hbg : (b.lastE || !b.ne) = false := by
              rw [← hle, ← hne']
              simp [hga1, hga2']
            have hbk : (b.cur.isSome || alwaysKeep l) = true := by simp [hbc]
            simp only [normGo, hh, hb, hg, hk, hbg, hbk,
              Bool.false_eq_true, if_false, if_true]
            exact congrArg (l :: ·) (ih _ _ ⟨hseen, Or.inr ⟨hbc, rfl, rfl⟩⟩)
          · rw [Bool.not_eq_true] at hk
            have hac : a.cur = none := by
              obtain ⟨h1, _⟩ := Bool.or_eq_false_iff.mp hk
              cases hax : a.cur with
              | none => rfl
              | some p => rw [hax] at h1; cases h1
            simp only [normGo, hh, hb, hg, hk, Bool.false_eq_true, if_false, if_true]
            exact ih _ b ⟨hseen, Or.inl hac⟩
      · rw [Bool.not_eq_true] at hb
        by_cases hk : (a.cur.isSome || alwaysKeep l) = true
        · have hbk : (b.cur.isSome || alwaysKeep l) = true := by
            have hk' : a.cur.isSome = true ∨ alwaysKeep l = true := by simpa using hk
            rcases hk' with h | h
            · rcases hcur with hnone | ⟨hbc, _, _⟩
              · rw [hnone] at h; cases h
              · simp [hbc]
            · simp [h]
          simp only [normGo, hh, hb, hk, hbk, Bool.false_eq_true, if_false, if_true]
          refine congrArg (l :: ·) (ih _ _ ⟨hseen, ?_⟩)
          cases hax : a.cur with
          | none => exact Or.inl rfl
          | some p =>
            rcases hcur with hnone | ⟨hbc, _, _⟩
            · rw [hax] at hnone; cases hnone
            · exact Or.inr ⟨hbc, rfl, rfl⟩
        · rw [Bool.not_eq_true] at hk
          have hac : a.cur = none := by
            obtain ⟨h1, _⟩ := Bool.or_eq_false_iff.mp hk
            cases hax : a.cur with
            | none => rfl
            | some p => rw [hax] at h1; cases h1
          simp only [normGo, hh, hb, hk, Bool.false_eq_true, if_false, if_true]
          exact ih _ b ⟨hseen, Or.inl hac⟩

/-- `dropWhile` is idempotent. -/
theorem dropWhile_idem (p : Str → Bool) (l : List Str) :
    (l.dropWhile p).dropWhile p = l.dropWhile p := by
  induction l with
  | nil => rfl
  | cons c t ih =>
    by_cases h : p c = true
    · simp [List.dropWhile_cons, h, ih]
    · rw [Bool.not_eq_true] at h
      simp [List.dropWhile_cons, h]

/-- Removing trailing blank lines is idempotent. -/
theorem dropLastBlanks_idem (L : List Str) :
    dropLastBlanks (dropLastBlanks L) = dropLastBlanks L := by
  unfold dropLastBlanks
  rw [List.reverse_reverse, dropWhile_idem]

/-- Lines surviving the trailing-blank removal come from the input. -/
theorem mem_dropLastBlanks {l : Str} {L : List Str} (h : l ∈ dropLastBlanks L) :
    l ∈ L := by
  unfold dropLastBlanks at h
  rw [List.mem_reverse] at h
  exact List.mem_reverse.mp ((List.dropWhile_sublist _).subset h)

/-- A list is its trailing-blank-free prefix plus its blank suffix. -/
theorem dropLastBlanks_decomp (L : List Str) :
    L = dropLastBlanks L ++ (L.reverse.takeWhile isBlankLine).reverse := by
  unfold dropLastBlanks
  conv_lhs => rw [← List.reverse_reverse L,
    ← List.takeWhile_append_dropWhile (p := isBlankLine) (l := L.reverse)]
  rw [List.reverse_append]

/-- Claim C4: the context normalizer is idempotent — for every input
document, `normalizeContext (normalizeContext x) = normalizeContext x`. -/
theorem claim4_normalize_idem (x : Str) :
    normalizeContext (normalizeContext x) = normalizeContext x := by
  by_cases hx : x = []
  · simp [normalizeContext, hx]
  · have hx' : normalizeContext x
        = joinNl (dropLastBlanks (normGo initState (splitNl x))) := by
      simp only [normalizeContext, normalizeLines]
      rw [if_neg hx]
    set O := normGo initState (splitNl x) with hO
    set D := dropLastBlanks O with hD
    by_cases hjd : joinNl D = []
    · rw [hx', hjd]
      simp [normalizeContext]
    · have hDne : D ≠ [] := by
        intro h
        rw [h] at hjd
        exact hjd rfl
      have hnl : ∀ l ∈ D, '\n' ∉ l := by
        intro l hl
        have h1 : l ∈ O := mem_dropLastBlanks hl
        have h2 : l ∈ splitNl x := (normGo_sublist (splitNl x) initState).subset h1
        exact splitNl_no_nl x l h2
      have hsplit : splitNl (joinNl D) = D := splitNl_join hDne hnl
      have hself : normGo initState O = O := by
        rw [hO]
        exact normGo_self (splitNl x) initState initState ⟨fun p hp => hp, Or.inl rfl⟩
      have hdec : O = D ++ (O.reverse.takeWhile isBlankLine).reverse := by
        rw [hD]
        exact dropLastBlanks_decomp O
      have happ : normGo initState O
          = normGo initState D
            ++ normGo (nstate initState D) ((O.reverse.takeWhile isBlankLine).reverse) := by
        conv_lhs => rw [hdec]
        exact normGo_append _ _ _
      have heq : normGo initState D
          ++ normGo (nstate initState D) ((O.reverse.takeWhile isBlankLine).reverse)
          = D ++ (O.reverse.takeWhile isBlankLine).reverse :=
        happ.symm.trans (hself.trans hdec)
      have hlen1 : (normGo initState D).length ≤ D.length :=
        (normGo_sublist D initState).length_le
      have hlen2 : (normGo (nstate initState D) ((O.reverse.takeWhile isBlankLine).reverse)).length
          ≤ ((O.reverse.takeWhile isBlankLine).reverse).length :=
        (normGo_sublist _ _).length_le
      have hlenD : (normGo initState D).length = D.length := by
        have := congrArg List.length heq
        simp only [List.length_append] at this
        omega
      have hDfix : normGo initState D = D := (List.append_inj heq hlenD).1
      rw [hx']
      simp only [normalizeContext, normalizeLines]
      rw [if_neg hjd, hsplit, hDfix, hD, dropLastBlanks_idem]

/-- The trailing-blank-free prefix is a sublist. -/
theorem dropLastBlanks_sublist (L : List Str) :
    List.Sublist (dropLastBlanks L) L := by
  conv_rhs => rw [dropLastBlanks_decomp L]
  exact List.sublist_append_left _ _

/-- Headers kept by the loop have pairwise distinct paths, none of them
already seen. -/
theorem normGo_headers (L : List Str) : ∀ st : NState,
    (((normGo st L).filter isHeaderLine).map headerPath).Nodup ∧
    ∀ q ∈ ((normGo st L).filter isHeaderLine).map headerPath, q ∉ st.seen := by
  induction L with
  | nil => intro st; simp [normGo]
  | cons l rest ih =>
    intro st
    by_cases hh : isHeaderLine l = true
    · by_cases hs : st.seen.contains (headerPath l) = true
      · simp only [normGo, hh, hs, if_true]
        exact ih _
      · rw [Bool.not_eq_true] at hs
        have hps : headerPath l ∉ st.seen := by
          intro hmem
          rw [← contains_mem] at hmem
          rw [hmem] at hs
          cases hs
        obtain ⟨hnd, hdisp⟩ := ih ⟨headerPath l :: st.seen, some (headerPath l), false, true⟩
        simp only [normGo, hh, hs, Bool.false_eq_true, if_false, if_true,
          List.filter_cons, List.map_cons]
        constructor
        · refine List.nodup_cons.mpr ⟨?_, hnd⟩
          intro hmem
          exact hdisp _ hmem (List.mem_cons_self _ _)
        · intro q hq
          rcases List.mem_cons.mp hq with h | h
          · exact h ▸ hps
          · intro hqs
            exact hdisp q h (List.mem_cons_of_mem _ hqs)
    · rw [Bool.not_eq_true] at hh
      by_cases hb : isBlankLine l = true
      · by_cases hg : (st.lastE || !st.ne) = true
        · simp only [normGo, hh, hb, hg, Bool.false_eq_true, if_false, if_true]
          exact ih _
        · rw [Bool.not_eq_true] at hg
          by_cases hk : (st.cur.isSome || alwaysKeep l) = true
          · simp only [normGo, hh, hb, hg, hk, Bool.false_eq_true, if_false, if_true,
              List.filter_cons]
            exact ih _
          · rw [Bool.not_eq_true] at hk
            simp only [normGo, hh, hb, hg, hk, Bool.false_eq_true, if_false, if_true]
            exact ih _
      · rw [Bool.not_eq_true] at hb
        by_cases hk : (st.cur.isSome || alwaysKeep l) = true
        · simp only [normGo, hh, hb, hk, Bool.false_eq_true, if_false, if_true,
            List.filter_cons]
          exact ih _
        · rw [Bool.not_eq_true] at hk
          simp only [normGo, hh, hb, hk, Bool.false_eq_true, if_false, if_true]
          exact ih _

/-- Claim C5 (counterexample): a `NOTE:` line lying between a repeated
path's duplicate header and the next header survives normalization, so
"every content line between the duplicate header and the next header is
dropped" fails. -/
theorem claim5_normalize_counterexample :
    splitNl ("--- FILE: a ---\n0001 | x\n--- FILE: a ---\nNOTE: keep\n--- FILE: b ---\n0002 | y".toList)
      = ["--- FILE: a ---".toList, "0001 | x".toList, "--- FILE: a ---".toList,
         "NOTE: keep".toList, "--- FILE: b ---".toList, "0002 | y".toList] ∧
    "NOTE: keep".toList ∈ splitNl (normalizeContext
      ("--- FILE: a ---\n0001 | x\n--- FILE: a ---\nNOTE: keep\n--- FILE: b ---\n0002 | y".toList)) := by
  decide

/-- Claim C5 (amended): after normalization each `--- FILE: <path> ---`
header appears at most once (the kept headers' paths are pairwise
distinct, first occurrence winning), a duplicate header switches the loop
to the no-current-file state, and in that state every line up to the next
header is dropped *except* lines containing `NOTE:` or `CONTEXT`, which
are always retained. -/
theorem claim5_normalize_amended :
    (∀ s : Str,
      (((normalizeLines (splitNl s)).filter isHeaderLine).map headerPath).Nodup) ∧
    (∀ (seen : List Str) (lastE ne : Bool) (mid : List Str),
      (∀ l ∈ mid, isHeaderLine l = false) →
      normGo ⟨seen, none, lastE, ne⟩ mid = mid.filter alwaysKeep) ∧
    (∀ (st : NState) (l : Str) (rest : List Str),
      isHeaderLine l = true → st.seen.contains (headerPath l) = true →
      normGo st (l :: rest) = normGo ⟨st.seen, none, st.lastE, st.ne⟩ rest) := by
  refine ⟨?_, ?_, ?_⟩
  · intro s
    have hsub : List.Sublist (normalizeLines (splitNl s)) (normGo initState (splitNl s)) :=
      dropLastBlanks_sublist _
    have hnd := (normGo_headers (splitNl s) initState).1
    exact hnd.sublist ((hsub.filter _).map _)
  · intro seen lastE ne mid
    induction mid generalizing lastE ne with
    | nil => intro _; simp [normGo]
    | cons l t ih =>
      intro hhs
      have hh : isHeaderLine l = false := hhs l (List.mem_cons_self l t)
      have hrest : ∀ x ∈ t, isHeaderLine x = false :=
        fun x hx => hhs x (List.mem_cons_of_mem l hx)
      by_cases hb : isBlankLine l = true
      · have hak : alwaysKeep l = false := alwaysKeep_of_blank hb
        by_cases hg : (lastE || !ne) = true
        · simp only [normGo, hh, hb, hg, Bool.false_eq_true, if_false, if_true,
            List.filter_cons, hak]
          exact ih lastE ne hrest
        · rw [Bool.not_eq_true] at hg
          have hk : ((none : Option Str).isSome || alwaysKeep l) = false := by
            simp [hak]
          simp only [normGo, hh, hb, hg, hk, Bool.false_eq_true, if_false, if_true,
            List.filter_cons, hak]
          exact ih true ne hrest
      · rw [Bool.not_eq_true] at hb
        by_cases hak : alwaysKeep l = true
        · have hk : ((none : Option Str).isSome || alwaysKeep l) = true := by simp [hak]
          simp only [normGo, hh, hb, hk, Bool.false_eq_true, if_false, if_true,
            List.filter_cons, hak]
          exact congrArg (l :: ·) (ih false true hrest)
        · rw [Bool.not_eq_true] at hak
          have hk : ((none : Option Str).isSome || alwaysKeep l) = false := by simp [hak]
          simp only [normGo, hh, hb, hk, Bool.false_eq_true, if_false, if_true,
            List.filter_cons, hak]
          exact ih false ne hrest
  · intro st l rest h1 h2
    simp only [normGo, h1, h2, if_true]

/-- Claim C5 (witness): the amended theorem instantiated on the
counterexample document's pieces. -/
theorem claim5_normalize_witness :
    (((normalizeLines (splitNl
        ("--- FILE: a ---\n0001 | x\n--- FILE: a ---\nNOTE: keep\n--- FILE: b ---\n0002 | y".toList))).filter
        isHeaderLine).map headerPath).Nodup ∧
    normGo ⟨["a".toList], none, false, true⟩ ["NOTE: keep".toList, "0002 | y".toList]
      = ["NOTE: keep".toList, "0002 | y".toList].filter alwaysKeep ∧
    normGo ⟨["a".toList], some ("a".toList), false, true⟩
        ("--- FILE: a ---".toList :: ["NOTE: keep".toList])
      = normGo ⟨["a".toList], none, false, true⟩ ["NOTE: keep".toList] := by
  have h := claim5_normalize_amended
  exact ⟨h.1 _, h.2.1 _ _ _ _ (by decide), h.2.2 _ _ _ (by decide) (by decide)⟩
